import Mathlib

/-!
Shallow embedding of the parrot38 parser (src/parrot38.py): the pattern
derivation of Delimiter.__new__, the WriteOnceDict record type and the
line-by-line state machine of the parse generator.  Lines are modelled as
lists of characters (trailing newline included); the regular expressions
of the source are modelled by their matching semantics on whole lines
(ASCII fragment of the Python semantics).
-/

namespace Parrot38

/-- One line of input, as a list of characters (trailing newline included). -/
abbrev Line := List Char

/-- ASCII fragment of the Python regex word class used in META_PATTERN. -/
def isWordChar (c : Char) : Bool := c.isAlphanum || c == '_'

/-- ASCII whitespace as recognised by Python str.strip and the space class. -/
def isPySpace (c : Char) : Bool :=
  c == ' ' || c == '\t' || c == '\n' || c == '\x0d' || c == '\x0b' || c == '\x0c'

/-- Semantics of the regex escape obtained by prefixing the separator with a
backslash in Delimiter.__new__ (the source builds the pattern with a percent
format of backslash and the char): for most characters the escape denotes the
character itself, but for class letters such as d, w, s (and their negations)
it denotes a character class, and for the usual control letters it denotes a
control character.  For characters where CPython re would reject the whole
pattern at compile time (bare ASCII letter escapes, numeric backreferences)
no theorem below relies on the final catch-all branch. -/
def escMatches (c x : Char) : Bool :=
  if c == 'd' then x.isDigit
  else if c == 'D' then !x.isDigit
  else if c == 'w' then isWordChar x
  else if c == 'W' then !(isWordChar x)
  else if c == 's' then isPySpace x
  else if c == 'S' then !(isPySpace x)
  else if c == 'n' then x == '\n'
  else if c == 't' then x == '\t'
  else if c == 'r' then x == '\x0d'
  else if c == 'f' then x == '\x0c'
  else if c == 'v' then x == '\x0b'
  else if c == 'a' then x == '\x07'
  else x == c

/-- Python re.match of a fully anchored pattern: the final dollar anchor
matches at the end of the string or just before one trailing newline. -/
def withDollar (core : Line → Bool) (s : Line) : Bool :=
  core s || (s.getLast? == some '\n' && core s.dropLast)

/-- Body of the plain delimiter pattern of Delimiter.__new__: seven or more
repetitions of the (escaped) separator and nothing else. -/
def delimCore (f : Char → Bool) (s : Line) : Bool :=
  decide (7 ≤ s.length) && s.all f

/-- Delimiter.pattern of Delimiter(c) as a whole-line matcher. -/
def matchDelim (c : Char) (s : Line) : Bool :=
  withDollar (delimCore (escMatches c)) s

/-- Body of Delimiter.esc_pattern: a literal backslash followed by the
plain delimiter body. -/
def escDelimCore (f : Char → Bool) (s : Line) : Bool :=
  match s with
  | b :: rest => b == '\\' && delimCore f rest
  | [] => false

/-- Delimiter.esc_pattern of Delimiter(c) as a whole-line matcher. -/
def matchEscDelim (c : Char) (s : Line) : Bool :=
  withDollar (escDelimCore (escMatches c)) s

/-- Match of META_PATTERN against a whole string ignoring the dollar anchor
special case (handled by metaGroups): two colons, a nonempty greedy run of
word characters (group one), two colons, then the rest of the line which the
dot class forbids from containing a newline (group two). -/
def metaCore (s : Line) : Option (Line × Line) :=
  match s with
  | c1 :: c2 :: rest =>
    if c1 == ':' && c2 == ':' then
      match rest.dropWhile isWordChar with
      | d1 :: d2 :: value =>
        if (rest.takeWhile isWordChar).isEmpty then none
        else if d1 == ':' && d2 == ':' && value.all (fun x => x != '\n') then
          some (rest.takeWhile isWordChar, value)
        else none
      | _ => none
    else none
  | _ => none

/-- META_PATTERN as a whole-line matcher returning the two captured groups,
with the dollar anchor allowed to sit before one trailing newline. -/
def metaGroups (s : Line) : Option (Line × Line) :=
  match metaCore s with
  | some g => some g
  | none => if s.getLast? == some '\n' then metaCore s.dropLast else none

/-- Body of META_ESCAPED: a literal backslash followed by the META_PATTERN
body (the parser only needs whether it matches, not its groups). -/
def escMetaCore (s : Line) : Bool :=
  match s with
  | b :: rest => b == '\\' && (metaCore rest).isSome
  | [] => false

/-- META_ESCAPED as a whole-line matcher. -/
def matchEscMeta (s : Line) : Bool :=
  withDollar escMetaCore s

/-- Python str.strip with no argument: remove leading and trailing
whitespace (ASCII fragment). -/
def stripChars (s : Line) : Line :=
  ((s.dropWhile isPySpace).reverse.dropWhile isPySpace).reverse

/-- ASCII fragment of Python str.lower, applied to metadata keys. -/
def lowerChar (c : Char) : Char :=
  if c.isUpper then Char.ofNat (c.toNat + 32) else c

/-- Lower-casing of a captured metadata key, as a Lean string. -/
def lowerKey (k : Line) : String := String.mk (k.map lowerChar)

/-- A post record: the insertion-ordered key-to-value mapping built by the
parser (WriteOnceDict preserves insertion order and the body key is added
last on finalisation). -/
abbrev Record := List (String × String)

/-- Membership test of a key in a record. -/
def hasKey (d : Record) (k : String) : Bool := d.any (fun p => p.1 == k)

/-- Value stored for a key (used for the text of the duplicate-key error). -/
def lookupKey (d : Record) (k : String) : String :=
  match d.find? (fun p => p.1 == k) with
  | some p => p.2
  | none => ""

/-- WriteOnceDict.__setitem__: inserting an already present key fails
(AttributeError naming the key and the existing value); otherwise the pair
is appended in insertion order. -/
def wodInsert (d : Record) (k v : String) : Option Record :=
  if hasKey d k then none else some (d ++ [(k, v)])

/-- The cause chained below the wrapping ValueError of parse.  Only the
duplicate-key AttributeError of WriteOnceDict is reachable; it carries the
offending key and the value already stored for it. -/
inductive ErrorCause where
  | duplicateKey (key : String) (existing : String)
deriving DecidableEq

/-- Model of the ValueError raised by parse, whose message carries the
1-based line number and the original text of the offending line, with the
underlying cause chained below it. -/
structure ParseError where
  lineNumber : Nat
  lineText : Line
  cause : ErrorCause
deriving DecidableEq

/-- The state carried across lines by parse: the in-progress write-once
record, the queue of accumulated body lines, and the empty flag that stays
true until a non-blank body line arrives. -/
structure PState where
  entry : Record
  body : List Line
  empty : Bool
deriving DecidableEq

/-- The fresh state installed at the start of parse and after every plain
delimiter line. -/
def initState : PState := ⟨[], [], true⟩

/-- Outcome of processing one line: either a successor state together with
an optional emitted record, or the cause of an error. -/
inductive Step where
  | ok (next : PState) (emitted : Option Record)
  | err (cause : ErrorCause)
deriving DecidableEq

/-- Appending one line of body content: the line joins the queue and the
empty flag is cleared as soon as a line with non-whitespace content is
seen. -/
def appendBody (s : PState) (l : Line) : PState :=
  ⟨s.entry, s.body ++ [l], s.empty && (stripChars l).isEmpty⟩

/-- Finalisation of the body: the queue is reversed when backwards was
requested, joined into one string, and stripped of surrounding
whitespace. -/
def joinBody (backwards : Bool) (body : List Line) : String :=
  String.mk (stripChars (List.flatten (if backwards then body.reverse else body)))

/-- Processing of a plain delimiter line: a non-empty post is finalised
(body key inserted, which fails when a metadata line already claimed the
body key) and emitted; the state is reset either way. -/
def processDelim (backwards : Bool) (s : PState) : Step :=
  if s.empty then .ok initState none
  else
    match wodInsert s.entry "body" (joinBody backwards s.body) with
    | some e => .ok initState (some e)
    | none => .err (.duplicateKey "body" (lookupKey s.entry "body"))

/-- Processing of a metadata line: the key is lower-cased, the value is
stripped, and the pair is inserted into the write-once record (failing on a
duplicate key). -/
def processMeta (s : PState) (k v : Line) : Step :=
  match wodInsert s.entry (lowerKey k) (String.mk (stripChars v)) with
  | some e => .ok ⟨e, s.body, s.empty⟩ none
  | none => .err (.duplicateKey (lowerKey k) (lookupKey s.entry (lowerKey k)))

/-- Processing of one line of parse, with the patterns tried in the fixed
priority order of the source (plain delimiter, metadata, escaped delimiter,
escaped metadata, body).  Escaped lines lose exactly their leading backslash
and become body content. -/
def processLine (c : Char) (backwards : Bool) (s : PState) (l : Line) : Step :=
  if matchDelim c l then processDelim backwards s
  else
    match metaGroups l with
    | some (k, v) => processMeta s k v
    | none =>
      if matchEscDelim c l || matchEscMeta l then .ok (appendBody s (l.drop 1)) none
      else .ok (appendBody s l) none

/-- Result of running the parse loop over a list of lines: the records
emitted, the wrapped error that stopped the loop (if any), and the state
after the last processed line. -/
structure LoopOut where
  records : List Record
  error : Option ParseError
  final : PState
deriving DecidableEq

/-- The main loop of parse: lines are numbered from the given 1-based
counter; any error cause is wrapped with the line number and the original
line text and stops the stream. -/
def loop (c : Char) (backwards : Bool) : List Line → Nat → PState → LoopOut
  | [], _, s => ⟨[], none, s⟩
  | l :: ls, n, s =>
    match processLine c backwards s l with
    | .err cause => ⟨[], some ⟨n, l, cause⟩, s⟩
    | .ok s' none => loop c backwards ls (n + 1) s'
    | .ok s' (some r) =>
      let rest := loop c backwards ls (n + 1) s'
      ⟨r :: rest.records, rest.error, rest.final⟩

/-- Delimiter.default of Delimiter.__new__: the separator repeated 38
times (the canonical delimiter line chained after the input by parse). -/
def defaultLine (c : Char) : Line := List.replicate 38 c

/-- Observable outcome of parse: the sequence of yielded records and the
error that terminated the generator, if any. -/
structure ParseResult where
  records : List Record
  error : Option ParseError
deriving DecidableEq

/-- The parse generator: the canonical default delimiter line is chained
after the input, and the loop starts at line number 1 with a fresh
state. -/
def parse (lines : List Line) (backwards : Bool := false)
    (delim_char : Char := ':') : ParseResult :=
  let o := loop delim_char backwards (lines ++ [defaultLine delim_char]) 1 initState
  ⟨o.records, o.error⟩

/-- Shape of every non-body pair of an emitted record: the key is the
lower-casing of a nonempty run of word characters captured by META_PATTERN
and the value is a raw captured value with surrounding whitespace
stripped. -/
def GoodPair (p : String × String) : Prop :=
  ∃ k v : Line, k ≠ [] ∧ (∀ ch ∈ k, isWordChar ch = true) ∧
    p.1 = lowerKey k ∧ p.2 = String.mk (stripChars v)

/-- The lower-cased keys of the metadata lines of a line list, in order. -/
def metaKeys (ls : List Line) : List String :=
  ls.filterMap (fun l => (metaGroups l).map (fun g => lowerKey g.1))

/-- With the default colon separator the escaped separator of the delimiter
pattern denotes the literal colon. -/
theorem escMatches_colon (x : Char) : escMatches ':' x = (x == ':') := rfl

/-- For a separator that is neither an ASCII letter nor a digit, the escape
in the delimiter pattern denotes the literal separator character. -/
theorem escMatches_literal (c : Char) (h1 : c.isAlpha = false) (h2 : c.isDigit = false)
    (x : Char) : escMatches c x = (x == c) := by
  have hne : ∀ y : Char, y.isAlpha = true ∨ y.isDigit = true → (c == y) = false := by
    intro y hy
    cases hb : c == y with
    | false => rfl
    | true =>
      have hcy : c = y := eq_of_beq hb
      subst hcy
      rcases hy with h | h
      · rw [h1] at h; cases h
      · rw [h2] at h; cases h
  simp only [escMatches, hne 'd' (Or.inl (by decide)), hne 'D' (Or.inl (by decide)),
    hne 'w' (Or.inl (by decide)), hne 'W' (Or.inl (by decide)),
    hne 's' (Or.inl (by decide)), hne 'S' (Or.inl (by decide)),
    hne 'n' (Or.inl (by decide)), hne 't' (Or.inl (by decide)),
    hne 'r' (Or.inl (by decide)), hne 'f' (Or.inl (by decide)),
    hne 'v' (Or.inl (by decide)), hne 'a' (Or.inl (by decide)),
    Bool.false_eq_true, if_false]

/-- Seven or more literal repetitions of such a separator satisfy the body
of the delimiter pattern. -/
theorem delimCore_replicate (c : Char) (h1 : c.isAlpha = false) (h2 : c.isDigit = false)
    (n : Nat) (hn : 7 ≤ n) : delimCore (escMatches c) (List.replicate n c) = true := by
  unfold delimCore
  rw [List.all_eq_true.mpr, List.length_replicate, Bool.and_true]
  · exact decide_eq_true hn
  · intro x hx
    rw [List.eq_of_mem_replicate hx, escMatches_literal c h1 h2]
    exact beq_self_eq_true c

/-- An element delivered by getLast? is a member of the list. -/
theorem lastMem : ∀ (l : Line) (x : Char), l.getLast? = some x → x ∈ l
  | [], x, h => by cases h
  | [a], x, h => by
    rw [show ([a] : Line).getLast? = some a from rfl] at h
    cases h
    exact List.mem_singleton_self a
  | a :: b :: t, x, h => by
    rw [List.getLast?_cons_cons] at h
    exact List.mem_cons_of_mem a (lastMem (b :: t) x h)

/-- A list with a known last element is its dropLast followed by that
element. -/
theorem lastConcat : ∀ (l : Line) (x : Char), l.getLast? = some x → l.dropLast ++ [x] = l
  | [], x, h => by cases h
  | [a], x, h => by
    rw [show ([a] : Line).getLast? = some a from rfl] at h
    cases h
    rfl
  | a :: b :: t, x, h => by
    rw [List.getLast?_cons_cons] at h
    rw [show (a :: b :: t).dropLast = a :: (b :: t).dropLast from rfl, List.cons_append,
      lastConcat (b :: t) x h]

/-- dropWhile does nothing on a list of non-whitespace characters. -/
theorem dropWhile_eq_self_of_nospace (t : Line) (h : ∀ x ∈ t, isPySpace x = false) :
    t.dropWhile isPySpace = t := by
  cases t with
  | nil => rfl
  | cons a t =>
    rw [List.dropWhile_cons, h a (List.mem_cons_self a t)]
    simp

/-- stripChars does nothing on a list of non-whitespace characters. -/
theorem stripChars_of_nospace (t : Line) (h : ∀ x ∈ t, isPySpace x = false) :
    stripChars t = t := by
  unfold stripChars
  rw [dropWhile_eq_self_of_nospace t h,
    dropWhile_eq_self_of_nospace t.reverse (fun x hx => h x (List.mem_reverse.mp hx)),
    List.reverse_reverse]

/-- stripChars removes exactly the trailing newline from a non-whitespace
run followed by a newline. -/
theorem stripChars_concat_newline (t : Line) (h : ∀ x ∈ t, isPySpace x = false) :
    stripChars (t ++ ['\n']) = t := by
  cases t with
  | nil => rfl
  | cons a t =>
    have ha : isPySpace a = false := h a (List.mem_cons_self a t)
    have h2 : List.dropWhile isPySpace ((a :: t).reverse) = (a :: t).reverse :=
      dropWhile_eq_self_of_nospace _ (fun x hx => h x (List.mem_reverse.mp hx))
    unfold stripChars
    rw [List.cons_append, List.dropWhile_cons, ha]
    simp only [Bool.false_eq_true, if_false]
    rw [← List.cons_append, show ((a :: t) ++ ['\n']).reverse = '\n' :: (a :: t).reverse by simp,
      List.dropWhile_cons, show isPySpace '\n' = true from rfl]
    simp only [if_true]
    rw [h2, List.reverse_reverse]

/-- stripChars erases a line made of whitespace only. -/
theorem stripChars_blank (l : Line) (h : ∀ x ∈ l, isPySpace x = true) :
    stripChars l = [] := by
  unfold stripChars
  rw [List.dropWhile_eq_nil_iff.mpr h]
  rfl

/-- Unfolding of the parse loop on the empty list. -/
theorem loop_nil (c : Char) (bw : Bool) (n : Nat) (s : PState) :
    loop c bw [] n s = ⟨[], none, s⟩ := rfl

/-- Unfolding of the parse loop when the first line raises. -/
theorem loop_cons_err {c : Char} {bw : Bool} {s : PState} {l : Line} {cause : ErrorCause}
    (ls : List Line) (n : Nat) (h : processLine c bw s l = .err cause) :
    loop c bw (l :: ls) n s = ⟨[], some ⟨n, l, cause⟩, s⟩ := by
  rw [loop, h]

/-- Unfolding of the parse loop when the first line emits nothing. -/
theorem loop_cons_ok_none {c : Char} {bw : Bool} {s s' : PState} {l : Line}
    (ls : List Line) (n : Nat) (h : processLine c bw s l = .ok s' none) :
    loop c bw (l :: ls) n s = loop c bw ls (n + 1) s' := by
  rw [loop, h]

/-- Unfolding of the parse loop when the first line emits a record. -/
theorem loop_cons_ok_some {c : Char} {bw : Bool} {s s' : PState} {l : Line} {r : Record}
    (ls : List Line) (n : Nat) (h : processLine c bw s l = .ok s' (some r)) :
    loop c bw (l :: ls) n s =
      ⟨r :: (loop c bw ls (n + 1) s').records, (loop c bw ls (n + 1) s').error,
        (loop c bw ls (n + 1) s').final⟩ := by
  rw [loop, h]

/-- Splitting the parse loop at a list append, when the first part runs
without error: records concatenate and the second part resumes from the
final state with the line counter advanced. -/
theorem loop_append_ok (c : Char) (bw : Bool) (ys xs : List Line) :
    ∀ (n : Nat) (s : PState), (loop c bw xs n s).error = none →
      loop c bw (xs ++ ys) n s =
        ⟨(loop c bw xs n s).records ++
            (loop c bw ys (n + xs.length) (loop c bw xs n s).final).records,
          (loop c bw ys (n + xs.length) (loop c bw xs n s).final).error,
          (loop c bw ys (n + xs.length) (loop c bw xs n s).final).final⟩ := by
  induction xs with
  | nil =>
    intro n s _
    simp [loop_nil]
  | cons x xs ih =>
    intro n s herr
    have harith : n + (x :: xs).length = n + 1 + xs.length := by
      simp only [List.length_cons]
      omega
    rw [List.cons_append]
    cases hp : processLine c bw s x with
    | err cause =>
      rw [loop_cons_err xs n hp] at herr
      simp at herr
    | ok s' em =>
      cases em with
      | none =>
        rw [loop_cons_ok_none xs n hp] at herr
        rw [loop_cons_ok_none (xs ++ ys) n hp, loop_cons_ok_none xs n hp, harith]
        exact ih (n + 1) s' herr
      | some r =>
        rw [loop_cons_ok_some xs n hp] at herr
        simp only at herr
        rw [loop_cons_ok_some (xs ++ ys) n hp, loop_cons_ok_some xs n hp, harith]
        simp only
        rw [ih (n + 1) s' herr]
        simp

/-- Inversion of a successful META_PATTERN body match: the line splits into
two colons, a nonempty word-character key, two colons, and a newline-free
value. -/
theorem metaCore_eq_some (s : Line) (k v : Line) (h : metaCore s = some (k, v)) :
    s = ':' :: ':' :: (k ++ ':' :: ':' :: v) ∧ k ≠ [] ∧
      (∀ ch ∈ k, isWordChar ch = true) ∧ ∀ ch ∈ v, ch ≠ '\n' := by
  match s with
  | [] => simp [metaCore] at h
  | [c1] => simp [metaCore] at h
  | c1 :: c2 :: rest =>
    rw [metaCore] at h
    split at h
    case isFalse => cases h
    case isTrue h12 =>
      have hc1 : c1 = ':' := eq_of_beq (Bool.and_elim_left h12)
      have hc2 : c2 = ':' := eq_of_beq (Bool.and_elim_right h12)
      subst hc1
      subst hc2
      split at h
      case h_2 => cases h
      case h_1 d1 d2 value heq =>
        split at h
        case isTrue => cases h
        case isFalse hke =>
          split at h
          case isFalse => cases h
          case isTrue hcond =>
            have hk : rest.takeWhile isWordChar = k := by
              have := congrArg (fun o => Option.map Prod.fst o) h
              simpa using this
            have hv : value = v := by
              have := congrArg (fun o => Option.map Prod.snd o) h
              simpa using this
            have hd1 : d1 = ':' :=
              eq_of_beq (Bool.and_elim_left (Bool.and_elim_left hcond))
            have hd2 : d2 = ':' :=
              eq_of_beq (Bool.and_elim_right (Bool.and_elim_left hcond))
            have hnl : ∀ ch ∈ v, ch ≠ '\n' := by
              intro ch hch
              have := List.all_eq_true.mp (Bool.and_elim_right hcond) ch (hv ▸ hch)
              exact bne_iff_ne.mp this
            subst hd1
            subst hd2
            subst hv
            refine ⟨?_, ?_, ?_, hnl⟩
            · rw [← hk, ← heq, List.takeWhile_append_dropWhile]
            · intro hknil
              rw [hk, hknil] at hke
              exact hke rfl
            · intro ch hch
              exact List.mem_takeWhile_imp (hk ▸ hch)

/-- The two groups delivered by a META_PATTERN match: the key is a nonempty
run of word characters. -/
theorem metaGroups_props (l k v : Line) (h : metaGroups l = some (k, v)) :
    k ≠ [] ∧ ∀ ch ∈ k, isWordChar ch = true := by
  rw [metaGroups] at h
  split at h
  case h_1 g heq =>
    cases h
    exact ⟨(metaCore_eq_some _ _ _ heq).2.1, (metaCore_eq_some _ _ _ heq).2.2.1⟩
  case h_2 =>
    split at h
    · exact ⟨(metaCore_eq_some _ _ _ h).2.1, (metaCore_eq_some _ _ _ h).2.2.1⟩
    · cases h

/-- A line containing a word character is not a run of colons, so it fails
the body of the default delimiter pattern. -/
theorem delimCore_colon_false (s : Line) (w : Char) (hw : w ∈ s)
    (hword : isWordChar w = true) : delimCore (escMatches ':') s = false := by
  cases hall : s.all (escMatches ':') with
  | false =>
    unfold delimCore
    rw [hall, Bool.and_false]
  | true =>
    exfalso
    have h1 := List.all_eq_true.mp hall w hw
    rw [escMatches_colon] at h1
    have hwc : w = ':' := eq_of_beq h1
    subst hwc
    exact absurd hword (by decide)

/-- A line matched by META_PATTERN is never matched by the default
delimiter pattern (the patterns are tried delimiter first, so this settles
the priority question for metadata lines). -/
theorem metaGroups_not_delim (l : Line) (k v : Line) (h : metaGroups l = some (k, v)) :
    matchDelim ':' l = false := by
  rw [metaGroups] at h
  split at h
  case h_1 g heq =>
    cases h
    obtain ⟨hshape, hknil, hword, hnl⟩ := metaCore_eq_some _ _ _ heq
    obtain ⟨w, k', hk⟩ : ∃ w k', k = w :: k' := by
      cases k with
      | nil => exact absurd rfl hknil
      | cons w k' => exact ⟨w, k', rfl⟩
    have hwmem : w ∈ l := by
      rw [hshape, hk]
      simp
    have hnomem : ∀ ch ∈ l, ch ≠ '\n' := by
      intro ch hch
      rw [hshape] at hch
      simp only [List.mem_cons, List.mem_append] at hch
      rcases hch with h | h | h | h | h | h
      · subst h; decide
      · subst h; decide
      · have := hword ch h
        intro heq
        subst heq
        exact absurd this (by decide)
      · subst h; decide
      · subst h; decide
      · exact hnl ch h
    have hlast : (l.getLast? == some '\n') = false := by
      cases hgl : l.getLast? with
      | none => rfl
      | some a =>
        have : a ≠ '\n' := hnomem a (lastMem l a hgl)
        simp [this]
    unfold matchDelim withDollar
    rw [hlast, Bool.false_and, Bool.or_false,
      delimCore_colon_false l w hwmem (hword w (hk ▸ List.mem_cons_self w k'))]
  case h_2 =>
    split at h
    case isFalse => cases h
    case isTrue hlast =>
      obtain ⟨hshape, hknil, hword, _⟩ := metaCore_eq_some _ _ _ h
      obtain ⟨w, k', hk⟩ : ∃ w k', k = w :: k' := by
        cases k with
        | nil => exact absurd rfl hknil
        | cons w k' => exact ⟨w, k', rfl⟩
      have hwd : w ∈ l.dropLast := by
        rw [hshape, hk]
        simp
      have hwmem : w ∈ l := List.dropLast_subset l hwd
      have hwword : isWordChar w = true := hword w (hk ▸ List.mem_cons_self w k')
      unfold matchDelim withDollar
      rw [delimCore_colon_false l w hwmem hwword,
        delimCore_colon_false l.dropLast w hwd hwword, Bool.and_false, Bool.or_false]

/-- A line matched by the delimiter pattern is handled by processDelim. -/
theorem processLine_of_delim {c : Char} {bw : Bool} {s : PState} {l : Line}
    (h : matchDelim c l = true) : processLine c bw s l = processDelim bw s := by
  unfold processLine
  rw [h]
  simp

/-- A line matched by META_PATTERN but not by the delimiter pattern is
handled by processMeta on its two groups. -/
theorem processLine_of_meta {c : Char} {bw : Bool} {s : PState} {l : Line} {k v : Line}
    (hd : matchDelim c l = false) (hm : metaGroups l = some (k, v)) :
    processLine c bw s l = processMeta s k v := by
  unfold processLine
  rw [hd, hm]
  simp

/-- A delimiter line reaching an empty post just resets the state. -/
theorem processDelim_empty {bw : Bool} {s : PState} (h : s.empty = true) :
    processDelim bw s = .ok initState none := by
  unfold processDelim
  rw [h]
  simp

/-- A delimiter line reaching a non-empty post whose record does not yet
hold the body key finalises and emits the record, then resets. -/
theorem processDelim_emit {bw : Bool} {s : PState} (h : s.empty = false)
    (hb : hasKey s.entry "body" = false) :
    processDelim bw s =
      .ok initState (some (s.entry ++ [("body", joinBody bw s.body)])) := by
  unfold processDelim wodInsert
  rw [h, hb]
  simp

/-- A delimiter line reaching a non-empty post whose record already holds
the body key raises the duplicate-key cause. -/
theorem processDelim_dup {bw : Bool} {s : PState} (h : s.empty = false)
    (hb : hasKey s.entry "body" = true) :
    processDelim bw s = .err (.duplicateKey "body" (lookupKey s.entry "body")) := by
  unfold processDelim wodInsert
  rw [h, hb]
  simp

/-- A metadata line with a fresh lower-cased key extends the record and
touches neither the body queue nor the empty flag. -/
theorem processMeta_fresh {s : PState} {k v : Line}
    (h : hasKey s.entry (lowerKey k) = false) :
    processMeta s k v =
      .ok ⟨s.entry ++ [(lowerKey k, String.mk (stripChars v))], s.body, s.empty⟩ none := by
  unfold processMeta wodInsert
  rw [h]
  simp

/-- A metadata line whose lower-cased key is already present raises the
duplicate-key cause carrying the key and the stored value. -/
theorem processMeta_dup {s : PState} {k v : Line}
    (h : hasKey s.entry (lowerKey k) = true) :
    processMeta s k v =
      .err (.duplicateKey (lowerKey k) (lookupKey s.entry (lowerKey k))) := by
  unfold processMeta wodInsert
  rw [h]
  simp

/-- A record is emitted only by a delimiter line closing a non-empty post
whose record is free of the body key; the record is the entry extended with
the finalised body, and the state resets. -/
theorem processLine_emit (c : Char) (bw : Bool) (s : PState) (l : Line) (s' : PState)
    (r : Record) (h : processLine c bw s l = .ok s' (some r)) :
    matchDelim c l = true ∧ s.empty = false ∧ hasKey s.entry "body" = false ∧
      r = s.entry ++ [("body", joinBody bw s.body)] ∧ s' = initState := by
  unfold processLine at h
  split at h
  case isTrue hd =>
    unfold processDelim at h
    split at h
    case isTrue => simp at h
    case isFalse hne =>
      split at h
      case h_1 e hw =>
        unfold wodInsert at hw
        split at hw
        case isTrue => cases hw
        case isFalse hkey =>
          simp only [Option.some.injEq] at hw
          simp only [Step.ok.injEq, Option.some.injEq] at h
          refine ⟨hd, ?_, ?_, ?_, ?_⟩
          · rw [Bool.not_eq_true] at hne; exact hne
          · rw [Bool.not_eq_true] at hkey; exact hkey
          · rw [← h.2, ← hw]
          · rw [h.1]
      case h_2 hw => cases h
  case isFalse hd =>
    split at h
    case h_1 k v hm =>
      unfold processMeta at h
      split at h
      case h_1 e hw => simp at h
      case h_2 hw => cases h
    case h_2 hm =>
      split at h <;> simp at h

/-- When a line is processed without emitting, the record either resets,
stays unchanged, or grows by one freshly inserted lower-cased word key with
a stripped value. -/
theorem processLine_ok_none_entry (c : Char) (bw : Bool) (s : PState) (l : Line)
    (s' : PState) (h : processLine c bw s l = .ok s' none) :
    s'.entry = [] ∨ s'.entry = s.entry ∨
      ∃ k v : Line, k ≠ [] ∧ (∀ ch ∈ k, isWordChar ch = true) ∧
        s'.entry = s.entry ++ [(lowerKey k, String.mk (stripChars v))] := by
  unfold processLine at h
  split at h
  case isTrue hd =>
    unfold processDelim at h
    split at h
    case isTrue =>
      simp only [Step.ok.injEq] at h
      left
      rw [← h.1]
      rfl
    case isFalse =>
      split at h
      case h_1 e hw => simp at h
      case h_2 hw => cases h
  case isFalse hd =>
    split at h
    case h_1 k v hm =>
      unfold processMeta at h
      split at h
      case h_1 e hw =>
        unfold wodInsert at hw
        split at hw
        case isTrue => cases hw
        case isFalse hkey =>
          right; right
          obtain ⟨hk1, hk2⟩ := metaGroups_props l k v hm
          refine ⟨k, v, hk1, hk2, ?_⟩
          simp only [Option.some.injEq] at hw
          simp only [Step.ok.injEq] at h
          rw [← h.1, ← hw]
      case h_2 hw => cases h
    case h_2 hm =>
      split at h <;>
        (right; left;
         simp only [Step.ok.injEq] at h;
         rw [← h.1];
         rfl)

/-- Invariant of the parse loop: starting from a state whose record pairs
all have the metadata shape, every emitted record holds the body key and
all its other pairs have the metadata shape. -/
theorem loop_records_good (c : Char) (bw : Bool) (ls : List Line) :
    ∀ (n : Nat) (s : PState), (∀ p ∈ s.entry, GoodPair p) →
      ∀ r ∈ (loop c bw ls n s).records,
        hasKey r "body" = true ∧ ∀ p ∈ r, p.1 ≠ "body" → GoodPair p := by
  induction ls with
  | nil =>
    intro n s _ r hr
    rw [loop_nil] at hr
    cases hr
  | cons l ls ih =>
    intro n s hinv r hr
    cases hp : processLine c bw s l with
    | err cause =>
      rw [loop_cons_err ls n hp] at hr
      cases hr
    | ok s' em =>
      cases em with
      | none =>
        rw [loop_cons_ok_none ls n hp] at hr
        refine ih (n + 1) s' ?_ r hr
        rcases processLine_ok_none_entry c bw s l s' hp with h | h | ⟨k, v, hk1, hk2, h⟩
        · rw [h]
          intro p hp'
          cases hp'
        · rw [h]
          exact hinv
        · rw [h]
          intro p hp'
          rcases List.mem_append.mp hp' with h2 | h2
          · exact hinv p h2
          · rw [List.mem_singleton] at h2
            subst h2
            exact ⟨k, v, hk1, hk2, rfl, rfl⟩
      | some r0 =>
        rw [loop_cons_ok_some ls n hp] at hr
        simp only [List.mem_cons] at hr
        obtain ⟨_, _, _, hr0, hs'⟩ := processLine_emit c bw s l s' r0 hp
        rcases hr with hr | hr
        · subst hr
          constructor
          · rw [hr0]
            unfold hasKey
            rw [List.any_append]
            simp
          · intro p hpmem hpne
            rw [hr0] at hpmem
            rcases List.mem_append.mp hpmem with h2 | h2
            · exact hinv p h2
            · rw [List.mem_singleton] at h2
              subst h2
              exact absurd rfl hpne
        · refine ih (n + 1) s' ?_ r hr
          rw [hs']
          intro p hp'
          cases hp'

/-- Running the loop over lines that are only metadata lines with pairwise
fresh lower-cased keys or whitespace-only body lines: nothing is emitted,
nothing fails, and the empty flag survives. -/
theorem loop_blank_segment (c : Char) (bw : Bool) (inner : List Line) :
    ∀ (n : Nat) (s : PState), s.empty = true →
      (∀ l ∈ inner, matchDelim c l = false) →
      (∀ l ∈ inner, (metaGroups l).isSome = true ∨ ∀ x ∈ l, isPySpace x = true) →
      (metaKeys inner).Nodup →
      (∀ q ∈ metaKeys inner, hasKey s.entry q = false) →
      (loop c bw inner n s).records = [] ∧ (loop c bw inner n s).error = none ∧
        (loop c bw inner n s).final.empty = true := by
  induction inner with
  | nil =>
    intro n s he _ _ _ _
    rw [loop_nil]
    exact ⟨rfl, rfl, he⟩
  | cons l ls ih =>
    intro n s he hnd hml hnodup hfresh
    have hdl : matchDelim c l = false := hnd l (List.mem_cons_self l ls)
    cases hm : metaGroups l with
    | some g =>
      obtain ⟨k, v⟩ := g
      have hkeys : metaKeys (l :: ls) = lowerKey k :: metaKeys ls := by
        unfold metaKeys
        rw [List.filterMap_cons, hm]
        rfl
      have hfreshk : hasKey s.entry (lowerKey k) = false := by
        apply hfresh
        rw [hkeys]
        exact List.mem_cons_self _ _
      have hstep : processLine c bw s l =
          .ok ⟨s.entry ++ [(lowerKey k, String.mk (stripChars v))], s.body, s.empty⟩ none := by
        rw [processLine_of_meta hdl hm, processMeta_fresh hfreshk]
      rw [loop_cons_ok_none ls n hstep]
      rw [hkeys] at hnodup hfresh
      refine ih (n + 1) _ he (fun x hx => hnd x (List.mem_cons_of_mem _ hx))
        (fun x hx => hml x (List.mem_cons_of_mem _ hx)) (List.nodup_cons.mp hnodup).2 ?_
      intro q hq
      unfold hasKey
      rw [List.any_append]
      have h1 : hasKey s.entry q = false := hfresh q (List.mem_cons_of_mem _ hq)
      have h2 : (lowerKey k == q) = false := by
        apply beq_eq_false_iff_ne.mpr
        intro hqe
        exact (List.nodup_cons.mp hnodup).1 (hqe ▸ hq)
      unfold hasKey at h1
      rw [h1]
      simp [h2]
    | none =>
      have hblank : ∀ x ∈ l, isPySpace x = true := by
        rcases hml l (List.mem_cons_self l ls) with h | h
        · rw [hm] at h
          cases h
        · exact h
      obtain ⟨lx, hlx, hstep⟩ : ∃ lx, (∀ x ∈ lx, isPySpace x = true) ∧
          processLine c bw s l = .ok (appendBody s lx) none := by
        unfold processLine
        rw [hdl, hm]
        by_cases hesc : (matchEscDelim c l || matchEscMeta l) = true
        · exact ⟨l.drop 1, fun x hx => hblank x (List.mem_of_mem_drop hx),
            by rw [hesc]; simp⟩
        · refine ⟨l, hblank, ?_⟩
          rw [Bool.not_eq_true] at hesc
          rw [hesc]
          simp
      have happ : (appendBody s lx).empty = true := by
        unfold appendBody
        simp only
        rw [stripChars_blank lx hlx, he]
        rfl
      have hkeys : metaKeys (l :: ls) = metaKeys ls := by
        unfold metaKeys
        rw [List.filterMap_cons, hm]
        rfl
      rw [loop_cons_ok_none ls n hstep]
      rw [hkeys] at hnodup hfresh
      exact ih (n + 1) _ happ (fun x hx => hnd x (List.mem_cons_of_mem _ hx))
        (fun x hx => hml x (List.mem_cons_of_mem _ hx)) hnodup hfresh

/-- The delimiter pattern body fails on any line whose head the separator
class rejects. -/
theorem delimCore_head_false {f : Char → Bool} {a : Char} (hf : f a = false) (t : Line) :
    delimCore f (a :: t) = false := by
  unfold delimCore
  rw [List.all_cons, hf, Bool.false_and, Bool.and_false]

/-- META_PATTERN requires two leading colons, so a line starting with a
backslash fails its body. -/
theorem metaCore_backslash (t : Line) : metaCore ('\\' :: t) = none := by
  cases t with
  | nil => rfl
  | cons a t' => rfl

/-- Inversion of the escaped-delimiter pattern body for the default
separator: a backslash followed by seven or more colons. -/
theorem escDelimCore_colon_inv (t : Line) (ht : escDelimCore (escMatches ':') t = true) :
    ∃ rest, t = '\\' :: rest ∧ 7 ≤ rest.length ∧ ∀ x ∈ rest, x = ':' := by
  cases t with
  | nil => cases ht
  | cons b rest =>
    unfold escDelimCore at ht
    rw [Bool.and_eq_true] at ht
    obtain ⟨hb, hcore⟩ := ht
    unfold delimCore at hcore
    rw [Bool.and_eq_true] at hcore
    refine ⟨rest, by rw [eq_of_beq hb], of_decide_eq_true hcore.1, ?_⟩
    intro x hx
    have hx2 := List.all_eq_true.mp hcore.2 x hx
    rw [escMatches_colon] at hx2
    exact eq_of_beq hx2

/-- A line that is neither a delimiter nor a metadata line but matches one
of the escaped patterns loses its first character and joins the body. -/
theorem processLine_escaped (c : Char) (bw : Bool) (s : PState) (l : Line)
    (hdelim : matchDelim c l = false) (hmeta : metaGroups l = none)
    (hesc : (matchEscDelim c l || matchEscMeta l) = true) :
    processLine c bw s l = .ok (appendBody s (l.drop 1)) none := by
  unfold processLine
  rw [hdelim, hmeta, hesc]
  simp

/-- C1: parsing the three-line example input (metadata line, body line, a
line of 38 colons) with default arguments yields exactly one record whose
date key holds the timestamp and whose body key holds the body text. -/
theorem c1_example_record :
    parse ["::date::2020-01-01 10:00\n".toList, "Hello world\n".toList,
        "::::::::::::::::::::::::::::::::::::::\n".toList] =
      ⟨[[("date", "2020-01-01 10:00"), ("body", "Hello world")]], none⟩ := by
  decide

/-- C2 (counterexample): the claim quantifies over every single character
accepted by the Delimiter constructor, but with separator d the derived
pattern is the digit class repeated seven or more times, so a line of seven
d characters (with or without its newline) is not recognised as a plain
delimiter line. -/
theorem c2_counterexample :
    matchDelim 'd' (List.replicate 7 'd') = false ∧
      matchDelim 'd' (List.replicate 7 'd' ++ ['\n']) = false := by
  decide

/-- C2 (amended): for every separator character that is not an ASCII letter
or digit — so that its backslash escape in the derived pattern denotes the
literal character, as for the default colon — the pattern that Delimiter
derives and parse uses for line classification recognises a line as a
plain delimiter line exactly when the line consists of 7 or more
repetitions of the separator and nothing else, optionally followed by its
newline terminator: such lines are recognised and no other line is. -/
theorem c2_delimiter_recognition (c : Char) (h1 : c.isAlpha = false)
    (h2 : c.isDigit = false) (s : Line) :
    matchDelim c s = true ↔
      ∃ n, 7 ≤ n ∧ (s = List.replicate n c ∨ s = List.replicate n c ++ ['\n']) := by
  constructor
  · intro h
    unfold matchDelim withDollar at h
    rw [Bool.or_eq_true] at h
    rcases h with h | h
    · unfold delimCore at h
      rw [Bool.and_eq_true] at h
      refine ⟨s.length, of_decide_eq_true h.1, Or.inl ?_⟩
      apply List.eq_replicate_of_mem
      intro b hb
      have hbc := List.all_eq_true.mp h.2 b hb
      rw [escMatches_literal c h1 h2] at hbc
      exact eq_of_beq hbc
    · rw [Bool.and_eq_true] at h
      obtain ⟨hlast, hcore⟩ := h
      unfold delimCore at hcore
      rw [Bool.and_eq_true] at hcore
      refine ⟨s.dropLast.length, of_decide_eq_true hcore.1, Or.inr ?_⟩
      have hrep : s.dropLast = List.replicate s.dropLast.length c := by
        apply List.eq_replicate_of_mem
        intro b hb
        have hbc := List.all_eq_true.mp hcore.2 b hb
        rw [escMatches_literal c h1 h2] at hbc
        exact eq_of_beq hbc
      rw [← hrep]
      exact (lastConcat s '\n' (eq_of_beq hlast)).symm
  · rintro ⟨n, hn, h | h⟩ <;> subst h
    · unfold matchDelim withDollar
      rw [delimCore_replicate c h1 h2 n hn, Bool.true_or]
    · unfold matchDelim withDollar
      rw [List.getLast?_concat, List.dropLast_concat, delimCore_replicate c h1 h2 n hn]
      simp

/-- C2 witness: for the default colon separator, a run of seven colons is
recognised, and the newline-terminated seven-colon line decomposes into the
exclusive shape the characterisation describes. -/
theorem c2_witness :
    matchDelim ':' (List.replicate 7 ':') = true ∧
      ∃ n, 7 ≤ n ∧ ((":::::::\n".toList : Line) = List.replicate n ':' ∨
        (":::::::\n".toList : Line) = List.replicate n ':' ++ ['\n']) :=
  ⟨(c2_delimiter_recognition ':' (by decide) (by decide) (List.replicate 7 ':')).mpr
      ⟨7, by decide, Or.inl rfl⟩,
    (c2_delimiter_recognition ':' (by decide) (by decide) (":::::::\n".toList)).mp
      (by decide)⟩

/-- C4: a plain delimiter line that closes a post which received no
non-blank body line emits no record and just resets the state; concretely,
an input of a single delimiter line yields zero records and no error, and
two consecutive delimiter lines with nothing between them also yield zero
records. -/
theorem c4_empty_post_not_emitted :
    (∀ (c : Char) (bw : Bool) (s : PState) (l : Line),
        s.empty = true → matchDelim c l = true →
        processLine c bw s l = .ok initState none) ∧
    parse [":::::::\n".toList] = ⟨[], none⟩ ∧
    parse [":::::::\n".toList, ":::::::\n".toList] = ⟨[], none⟩ := by
  refine ⟨?_, by decide, by decide⟩
  intro c bw s l he hd
  rw [processLine_of_delim hd, processDelim_empty he]

/-- C4 witness: the delimiter step at the fresh initial state on a line of
seven colons. -/
theorem c4_witness :
    processLine ':' false initState (":::::::\n".toList) = .ok initState none :=
  c4_empty_post_not_emitted.1 ':' false initState _ rfl (by decide)

/-- C5: an escaped delimiter line (a backslash followed by seven or more
separator characters, for the default colon separator) inside a post does
not close the post: exactly the leading backslash is stripped, the rest of
the line joins the body queue verbatim, nothing is emitted, the record is
untouched, and the post counts as non-empty afterwards. -/
theorem c5_escaped_delimiter (bw : Bool) (s : PState) (l : Line)
    (h : matchEscDelim ':' l = true) :
    processLine ':' bw s l = .ok ⟨s.entry, s.body ++ [l.drop 1], false⟩ none := by
  have hesc0 := h
  unfold matchEscDelim withDollar at h
  rw [Bool.or_eq_true] at h
  rcases h with h | h
  · obtain ⟨rest, hl, hlen, hcol⟩ := escDelimCore_colon_inv l h
    subst hl
    have hnos : ∀ x ∈ rest, isPySpace x = false := by
      intro x hx
      rw [hcol x hx]
      decide
    obtain ⟨r0, rest', hrest⟩ : ∃ r0 rest', rest = r0 :: rest' := by
      cases rest with
      | nil => cases hlen
      | cons r0 rest' => exact ⟨r0, rest', rfl⟩
    have hlast : (('\\' :: rest).getLast? == some '\n') = false := by
      cases hgl : ('\\' :: rest).getLast? with
      | none => rfl
      | some a =>
        have ha := lastMem _ a hgl
        have hane : a ≠ '\n' := by
          rcases List.mem_cons.mp ha with h2 | h2
          · subst h2; decide
          · rw [hcol a h2]; decide
        simp [hane]
    have hdelim : matchDelim ':' ('\\' :: rest) = false := by
      unfold matchDelim withDollar
      rw [delimCore_head_false (show escMatches ':' '\\' = false from rfl) rest,
        hlast, Bool.false_and, Bool.or_false]
    have hmeta : metaGroups ('\\' :: rest) = none := by
      unfold metaGroups
      rw [metaCore_backslash rest, hlast]
      simp
    rw [processLine_escaped ':' bw s _ hdelim hmeta (by rw [hesc0, Bool.true_or])]
    unfold appendBody
    rw [show (('\\' :: rest).drop 1) = rest from rfl,
      stripChars_of_nospace rest hnos, hrest]
    simp
  · rw [Bool.and_eq_true] at h
    obtain ⟨hlast, hcore⟩ := h
    obtain ⟨rest, hdl, hlen, hcol⟩ := escDelimCore_colon_inv l.dropLast hcore
    have hglast : l.getLast? = some '\n' := eq_of_beq hlast
    have hl : l = '\\' :: (rest ++ ['\n']) := by
      rw [← lastConcat l '\n' hglast, hdl]
      rfl
    have hnos : ∀ x ∈ rest, isPySpace x = false := by
      intro x hx
      rw [hcol x hx]
      decide
    obtain ⟨r0, rest', hrest⟩ : ∃ r0 rest', rest = r0 :: rest' := by
      cases rest with
      | nil => cases hlen
      | cons r0 rest' => exact ⟨r0, rest', rfl⟩
    have hdelim : matchDelim ':' l = false := by
      unfold matchDelim withDollar
      rw [hl, show ('\\' :: (rest ++ ['\n'])).dropLast = '\\' :: rest by
          rw [show '\\' :: (rest ++ ['\n']) = ('\\' :: rest) ++ ['\n'] from rfl,
            List.dropLast_concat],
        delimCore_head_false (show escMatches ':' '\\' = false from rfl),
        delimCore_head_false (show escMatches ':' '\\' = false from rfl),
        Bool.and_false, Bool.or_false]
    have hmeta : metaGroups l = none := by
      unfold metaGroups
      rw [hl, metaCore_backslash, show ('\\' :: (rest ++ ['\n'])).dropLast = '\\' :: rest by
          rw [show '\\' :: (rest ++ ['\n']) = ('\\' :: rest) ++ ['\n'] from rfl,
            List.dropLast_concat],
        metaCore_backslash]
      simp
    rw [processLine_escaped ':' bw s _ hdelim hmeta (by rw [hesc0, Bool.true_or])]
    unfold appendBody
    rw [hl, show (('\\' :: (rest ++ ['\n'])).drop 1) = rest ++ ['\n'] from rfl,
      stripChars_concat_newline rest hnos, hrest]
    simp

/-- C5 witness: a backslash followed by eight colons and a newline, at the
fresh initial state. -/
theorem c5_witness :
    processLine ':' false initState ("\\::::::::\n".toList) =
      .ok ⟨[], ["::::::::\n".toList], false⟩ none := by
  have h := c5_escaped_delimiter false initState ("\\::::::::\n".toList) (by decide)
  exact h.trans (by decide)

/-- C6: with backwards true the accumulated body queue is reversed before
joining — the join of a finalised post is the flattening of the reversed
queue — and the concrete reversed input restores the original body
order. -/
theorem c6_backwards_reversal :
    (∀ body : List Line, joinBody true body = String.mk (stripChars body.reverse.flatten)) ∧
    (∀ (s : PState) (l : Line), s.empty = false → matchDelim ':' l = true →
        hasKey s.entry "body" = false →
        processLine ':' true s l =
          .ok initState (some (s.entry ++ [("body", joinBody true s.body)]))) ∧
    parse ["line2\n".toList, "line1\n".toList, ":::::::::\n".toList] true =
      ⟨[[("body", "line1\nline2")]], none⟩ := by
  refine ⟨fun body => rfl, ?_, by decide⟩
  intro s l he hd hb
  rw [processLine_of_delim hd, processDelim_emit he hb]

/-- C6 witness: a delimiter closing a two-line post accumulated in reverse
order under backwards mode. -/
theorem c6_witness :
    processLine ':' true ⟨[], ["b\n".toList, "a\n".toList], false⟩ (":::::::\n".toList) =
      .ok initState (some [("body", "a\nb")]) := by
  have h := c6_backwards_reversal.2.1 ⟨[], ["b\n".toList, "a\n".toList], false⟩
    (":::::::\n".toList) rfl (by decide) rfl
  exact h.trans (by decide)

/-- C3: when a post has already stored a lower-cased metadata key, a later
metadata line of the same post whose key lower-cases to the same string
makes parse raise at that second line: the wrapped error carries the
1-based number of that line and its raw text, chained to the duplicate-key
cause naming the key and the value already stored. -/
theorem c3_duplicate_meta_error (bw : Bool) (pre : List Line) (l : Line)
    (post : List Line) (k v : Line)
    (herr : (loop ':' bw pre 1 initState).error = none)
    (hm : metaGroups l = some (k, v))
    (hdup : hasKey (loop ':' bw pre 1 initState).final.entry (lowerKey k) = true) :
    (parse (pre ++ l :: post) bw ':').error =
      some ⟨pre.length + 1, l,
        .duplicateKey (lowerKey k)
          (lookupKey (loop ':' bw pre 1 initState).final.entry (lowerKey k))⟩ := by
  have hstep : processLine ':' bw (loop ':' bw pre 1 initState).final l =
      .err (.duplicateKey (lowerKey k)
        (lookupKey (loop ':' bw pre 1 initState).final.entry (lowerKey k))) := by
    rw [processLine_of_meta (metaGroups_not_delim l k v hm) hm, processMeta_dup hdup]
  have hassoc : (pre ++ l :: post) ++ [defaultLine ':'] =
      pre ++ (l :: (post ++ [defaultLine ':'])) := by
    rw [List.append_assoc, List.cons_append]
  show (loop ':' bw ((pre ++ l :: post) ++ [defaultLine ':']) 1 initState).error = _
  rw [hassoc, loop_append_ok ':' bw (l :: (post ++ [defaultLine ':'])) pre 1 initState herr,
    loop_cons_err (post ++ [defaultLine ':']) (1 + pre.length) hstep]
  simp [Nat.add_comm]

/-- C3 witness: the keys a and A collide case-insensitively on line 2. -/
theorem c3_witness :
    (parse ["::a::1\n".toList, "::A::2\n".toList] false ':').error =
      some ⟨2, "::A::2\n".toList, .duplicateKey "a" "1"⟩ := by
  have h := c3_duplicate_meta_error false ["::a::1\n".toList] ("::A::2\n".toList) []
    ("A".toList) ("2".toList) (by decide) (by decide) (by decide)
  exact h.trans (by decide)

/-- C7 (counterexample): a trailing in-progress post with a non-blank body
line is not always finalised and emitted — when its metadata already
claimed the body key, the synthetic closing delimiter raises the
duplicate-key parse error at line 3 and no record is produced, against the
claim which promises emission for every such trailing post. -/
theorem c7_counterexample :
    parse ["::body::x\n".toList, "y\n".toList] =
      ⟨[], some ⟨3, defaultLine ':', .duplicateKey "body" "x"⟩⟩ := by
  decide

/-- C7 (amended): for every finite input over a separator whose backslash
escape is literal (such as the default colon), if the input leaves a post
with at least one non-blank body line in progress and its record does not
already hold the body key, then parse appends one synthetic canonical
delimiter line (the separator repeated 38 times) after the last real input
line, so the trailing post is still finalised and emitted as the last
record, with no error. -/
theorem c7_trailing_post_emitted (c : Char) (bw : Bool) (lines : List Line)
    (h1 : c.isAlpha = false) (h2 : c.isDigit = false)
    (ho : (loop c bw lines 1 initState).error = none)
    (he : (loop c bw lines 1 initState).final.empty = false)
    (hb : hasKey (loop c bw lines 1 initState).final.entry "body" = false) :
    parse lines bw c =
      ⟨(loop c bw lines 1 initState).records ++
          [(loop c bw lines 1 initState).final.entry ++
            [("body", joinBody bw (loop c bw lines 1 initState).final.body)]],
        none⟩ := by
  have hd : matchDelim c (defaultLine c) = true := by
    unfold defaultLine matchDelim withDollar
    rw [delimCore_replicate c h1 h2 38 (by decide), Bool.true_or]
  have hstep : processLine c bw (loop c bw lines 1 initState).final (defaultLine c) =
      .ok initState (some ((loop c bw lines 1 initState).final.entry ++
        [("body", joinBody bw (loop c bw lines 1 initState).final.body)])) := by
    rw [processLine_of_delim hd, processDelim_emit he hb]
  show (⟨(loop c bw (lines ++ [defaultLine c]) 1 initState).records,
    (loop c bw (lines ++ [defaultLine c]) 1 initState).error⟩ : ParseResult) = _
  rw [loop_append_ok c bw [defaultLine c] lines 1 initState ho,
    loop_cons_ok_some [] (1 + lines.length) hstep, loop_nil]

/-- C7 witness: a single body line with no closing delimiter is still
emitted at end of input. -/
theorem c7_witness : parse ["a\n".toList] = ⟨[[("body", "a")]], none⟩ := by
  have h := c7_trailing_post_emitted ':' false ["a\n".toList] (by decide) (by decide)
    (by decide) (by decide) (by decide)
  exact h.trans (by decide)

/-- C8: every record emitted by parse contains the body key, and every
other pair of the record pairs the lower-casing of a nonempty
word-character metadata key with a raw metadata value stripped of
surrounding whitespace; this holds for every emitted record of every
input, every direction flag and every separator. -/
theorem c8_record_shape (c : Char) (bw : Bool) (lines : List Line) (r : Record)
    (hr : r ∈ (parse lines bw c).records) :
    hasKey r "body" = true ∧ ∀ p ∈ r, p.1 ≠ "body" → GoodPair p := by
  have hsame : (parse lines bw c).records =
      (loop c bw (lines ++ [defaultLine c]) 1 initState).records := rfl
  rw [hsame] at hr
  exact loop_records_good c bw (lines ++ [defaultLine c]) 1 initState
    (by intro p hp; cases hp) r hr

/-- C8 witness: the record of the worked example has the emitted shape. -/
theorem c8_witness :
    hasKey [("date", "2020-01-01 10:00"), ("body", "Hello world")] "body" = true ∧
      ∀ p ∈ ([("date", "2020-01-01 10:00"), ("body", "Hello world")] : Record),
        p.1 ≠ "body" → GoodPair p :=
  c8_record_shape ':' false
    ["::date::2020-01-01 10:00\n".toList, "Hello world\n".toList,
      "::::::::::::::::::::::::::::::::::::::\n".toList]
    [("date", "2020-01-01 10:00"), ("body", "Hello world")] (by decide)

/-- C9 (counterexample): a post between two delimiter lines consisting only
of metadata lines is not always discarded silently — with a repeated key
parse raises at the second metadata line, against the claim that no error
is raised for such a post. -/
theorem c9_counterexample :
    parse [":::::::\n".toList, "::a::1\n".toList, "::a::2\n".toList, ":::::::\n".toList] =
      ⟨[], some ⟨3, "::a::2\n".toList, .duplicateKey "a" "1"⟩⟩ := by
  decide

/-- C9 (amended): a post whose lines between two delimiter lines consist
only of metadata lines and/or whitespace-only body lines, with pairwise
distinct lower-cased metadata keys, is discarded in its entirety when the
closing delimiter is reached: no record is emitted for it, no error is
raised, and any metadata already stored for it is silently lost (the state
resets to fresh). -/
theorem c9_blank_post_discarded (c : Char) (bw : Bool) (inner : List Line) (n : Nat)
    (d : Line) (hnd : ∀ l ∈ inner, matchDelim c l = false)
    (hml : ∀ l ∈ inner, (metaGroups l).isSome = true ∨ ∀ x ∈ l, isPySpace x = true)
    (hk : (metaKeys inner).Nodup) (hd : matchDelim c d = true) :
    loop c bw (inner ++ [d]) n initState = ⟨[], none, initState⟩ := by
  obtain ⟨hrec, herr, hemp⟩ := loop_blank_segment c bw inner n initState rfl hnd hml hk
    (fun q hq => rfl)
  have hstep : processLine c bw (loop c bw inner n initState).final d =
      .ok initState none := by
    rw [processLine_of_delim hd, processDelim_empty hemp]
  rw [loop_append_ok c bw [d] inner n initState herr,
    loop_cons_ok_none [] (n + inner.length) hstep, loop_nil, hrec]
  rfl

/-- C9 witness: one metadata line and one blank line between delimiters are
discarded wholesale. -/
theorem c9_witness :
    loop ':' false (["::a::1\n".toList, " \n".toList] ++ [":::::::\n".toList]) 2 initState =
      ⟨[], none, initState⟩ :=
  c9_blank_post_discarded ':' false ["::a::1\n".toList, " \n".toList] 2 (":::::::\n".toList)
    (by decide) (by decide) (by decide) (by decide)

/-- C10: a metadata line whose key lower-cases to body is itself accepted
when the key is fresh (first conjunct); a delimiter line closing a
non-empty post whose record already holds the body key raises the wrapped
parse error carrying the 1-based number and raw text of that delimiter line,
chained to the duplicate-key cause, and emits nothing from that point
(second conjunct); concretely, the two-line input fails at the synthetic
closing delimiter on line 3 with zero records (third conjunct). -/
theorem c10_body_metadata_error :
    (∀ (c : Char) (bw : Bool) (s : PState) (l : Line) (k v : Line),
        matchDelim c l = false → metaGroups l = some (k, v) →
        hasKey s.entry (lowerKey k) = false →
        processLine c bw s l =
          .ok ⟨s.entry ++ [(lowerKey k, String.mk (stripChars v))], s.body, s.empty⟩ none) ∧
    (∀ (c : Char) (bw : Bool) (ls : List Line) (n : Nat) (s : PState) (d : Line),
        matchDelim c d = true → s.empty = false → hasKey s.entry "body" = true →
        loop c bw (d :: ls) n s =
          ⟨[], some ⟨n, d, .duplicateKey "body" (lookupKey s.entry "body")⟩, s⟩) ∧
    parse ["::body::x\n".toList, "y\n".toList] =
      ⟨[], some ⟨3, defaultLine ':', .duplicateKey "body" "x"⟩⟩ := by
  refine ⟨?_, ?_, by decide⟩
  · intro c bw s l k v hd hm hfresh
    rw [processLine_of_meta hd hm, processMeta_fresh hfresh]
  · intro c bw ls n s d hd he hb
    have hstep : processLine c bw s d =
        .err (.duplicateKey "body" (lookupKey s.entry "body")) := by
      rw [processLine_of_delim hd, processDelim_dup he hb]
    rw [loop_cons_err ls n hstep]

/-- C10 witness: the body metadata line is accepted at the fresh state, and
the non-empty post then errors at the closing delimiter line. -/
theorem c10_witness :
    processLine ':' false initState ("::body::x\n".toList) =
      .ok ⟨[("body", "x")], [], true⟩ none ∧
    loop ':' false [":::::::\n".toList] 7 ⟨[("body", "x")], ["y\n".toList], false⟩ =
      ⟨[], some ⟨7, ":::::::\n".toList, .duplicateKey "body" "x"⟩,
        ⟨[("body", "x")], ["y\n".toList], false⟩⟩ := by
  constructor
  · have h := c10_body_metadata_error.1 ':' false initState ("::body::x\n".toList)
      ("body".toList) ("x".toList) (by decide) (by decide) (by decide)
    exact h.trans (by decide)
  · have h := c10_body_metadata_error.2.1 ':' false [] 7
      ⟨[("body", "x")], ["y\n".toList], false⟩ (":::::::\n".toList)
      (by decide) rfl (by decide)
    exact h.trans (by decide)

end Parrot38
